import Mathlib

/-!
# Pulse scheduler: shallow embedding

The repository slice contains only tests and tooling for the pulse
scheduler, so the scheduler itself is modelled from its specification:
the channel/timeline data model, the calibration resolver with the
measurement merger, the barrier engine, the forward (ASAP) and backward
(ALAP) placement passes and the schedule assembler.
-/

namespace PulseSched

/-- Modelled from the spec: a Channel is a typed resource identifier, one of
Drive(qubit), Control(index), Measure(qubit), Acquire(qubit); the unit of
mutual exclusion during scheduling. -/
inductive Channel where
  | drive (q : Nat)
  | control (idx : Nat)
  | measure (q : Nat)
  | acquire (q : Nat)
deriving DecidableEq, Repr

/-- Modelled from the spec: the opaque payload a PulseEvent carries; the
scheduler never interprets it.  An Acquire payload records the memory slot it
targets (the only payload field any scheduler rule reads is the slot of an
acquire, via the measurement-calibration mismatch rule). -/
inductive Payload where
  | wave (id : Nat)
  | acq (slot : Nat)
deriving DecidableEq, Repr

/-- Modelled from the spec: a PulseEvent is a (channel, start offset, duration,
opaque payload) tuple. -/
structure PulseEvent where
  channel : Channel
  offset : Nat
  duration : Nat
  payload : Payload
deriving DecidableEq, Repr

/-- Modelled from the spec: TimedContent is the ordered collection of
PulseEvents realizing one instruction, not yet globally placed. -/
structure TimedContent where
  events : List PulseEvent
deriving DecidableEq, Repr

/-- Total duration of a TimedContent: max over its events of offset+duration. -/
def contentDuration (tc : TimedContent) : Nat :=
  (tc.events.map (fun e => e.offset + e.duration)).foldr max 0

/-- The set (as a list) of channels a TimedContent touches. -/
def contentChannels (tc : TimedContent) : List Channel :=
  tc.events.map PulseEvent.channel

/-- Modelled from the spec: an Instruction is a gate (name, qubits, bound
numeric parameters, optional explicit calibration), a measurement (qubit,
classical bit, optional explicit calibration) or a barrier over a qubit set,
following the closed tagged variant the spec's design notes prescribe. -/
inductive Instr where
  | gate (name : String) (qubits : List Nat) (params : List Int)
      (cal : Option TimedContent)
  | measurement (q : Nat) (clbit : Nat) (cal : Option TimedContent)
  | barrier (qubits : List Nat)
deriving DecidableEq, Repr

/-- One entry of the global calibration table, keyed by (name, qubits). -/
structure CalEntry where
  name : String
  qubits : List Nat
  content : TimedContent
deriving DecidableEq, Repr

/-- Modelled from the spec: the global calibration table (the instruction
schedule map), a read-only snapshot looked up by (name, qubit tuple). -/
def CalTable := List CalEntry

/-- Table lookup by (name, qubits). -/
def lookupCal (tbl : CalTable) (name : String) (qubits : List Nat) :
    Option TimedContent :=
  (tbl.find? (fun e => e.name == name && e.qubits == qubits)).map CalEntry.content

/-- Modelled from the spec: hardware timing constants supplied as data to
synthesize default measurement content — durations, the default memory-slot
mapping, and the post-measurement channel-relaxation delay. -/
structure BackendDefaults where
  memSlot : Nat → Nat
  measDuration : Nat
  acqDuration : Nat
  relaxDelay : Nat

/-- Modelled from the spec: the synthesized default measurement realization for
qubit `q` targeting classical bit `clbit`: a Measure-channel stimulus event, an
Acquire event whose payload records the target memory slot, and the
post-measurement relaxation delay on the measure channel. -/
def defaultMeasContent (bd : BackendDefaults) (q clbit : Nat) : TimedContent :=
  ⟨[⟨Channel.measure q, 0, bd.measDuration, Payload.wave q⟩,
    ⟨Channel.acquire q, 0, bd.acqDuration, Payload.acq clbit⟩,
    ⟨Channel.measure q, bd.measDuration, bd.relaxDelay, Payload.wave q⟩]⟩

/-- Modelled from the spec: per-qubit measurement resolution.  If an explicit
or table calibration exists for ("measure", (q)) and the classical-bit target
equals the hardware default memory-slot mapping for q, the calibration is used
unchanged; otherwise the default measurement content is synthesized with the
memory slot remapped to the declared classical bit. -/
def resolveMeasQubit (tbl : CalTable) (bd : BackendDefaults) (q clbit : Nat)
    (cal : Option TimedContent) : TimedContent :=
  match cal.orElse (fun _ => lookupCal tbl "measure" [q]) with
  | some tc => if clbit = bd.memSlot q then tc else defaultMeasContent bd q clbit
  | none => defaultMeasContent bd q clbit

/-- A pending run of measurements to merge: (qubit, classical bit, optional
explicit calibration) per measured qubit. -/
abbrev MeasGroup := List (Nat × Nat × Option TimedContent)

/-- The qubits of a pending measurement group. -/
def groupQubits (g : MeasGroup) : List Nat := g.map (fun x => x.1)

/-- Modelled from the spec: qubits measured together are each resolved
independently and unioned into one merged TimedContent. -/
def mergeMeasGroup (tbl : CalTable) (bd : BackendDefaults) (g : MeasGroup) :
    TimedContent :=
  ⟨(g.map (fun x => (resolveMeasQubit tbl bd x.1 x.2.1 x.2.2).events)).flatten⟩

/-- An instruction stream element after measurement grouping but before
calibration resolution. -/
inductive PreItem where
  | gate (name : String) (qubits : List Nat) (params : List Int)
      (cal : Option TimedContent)
  | meas (group : MeasGroup)
  | fence (qubits : List Nat)
deriving DecidableEq

/-- Emit the pending measurement group, if non-empty, in front of `items`. -/
def flushPre (g : MeasGroup) (items : List PreItem) : List PreItem :=
  match g with
  | [] => items
  | _ :: _ => PreItem.meas g :: items

/-- Modelled from the spec: group maximal runs of consecutive measurement
instructions; a barrier, a gate, or a repeated qubit closes the pending merge
window (a repeated measurement of a qubit already pending starts a fresh
group, so it is never coalesced with the earlier one). -/
def groupGo : List Instr → MeasGroup → List PreItem
  | [], g => flushPre g []
  | Instr.gate n qs ps cal :: rest, g =>
      flushPre g (PreItem.gate n qs ps cal :: groupGo rest [])
  | Instr.measurement q cb cal :: rest, g =>
      if q ∈ groupQubits g then flushPre g (groupGo rest [(q, cb, cal)])
      else groupGo rest (g ++ [(q, cb, cal)])
  | Instr.barrier qs :: rest, g =>
      flushPre g (PreItem.fence qs :: groupGo rest [])

/-- Measurement grouping over a whole instruction stream. -/
def groupInstrs (instrs : List Instr) : List PreItem := groupGo instrs []

/-- Modelled from the spec: the error taxonomy of the scheduler (the
`unknownMethod` case models the error the dispatch entry point raises for an
unsupported direction selector). -/
inductive SchedErr where
  | unresolvedCalibration
  | ambiguousParameters
  | backendCapabilityMissing
  | malformedCircuit
  | unknownMethod
deriving DecidableEq, Repr

/-- Modelled from the spec: gate calibration resolution — explicit calibration
first, then the global table, else UnresolvedCalibration. -/
def resolveGate (tbl : CalTable) (name : String) (qubits : List Nat)
    (cal : Option TimedContent) : Except SchedErr TimedContent :=
  match cal with
  | some tc => Except.ok tc
  | none =>
    match lookupCal tbl name qubits with
    | some tc => Except.ok tc
    | none => Except.error SchedErr.unresolvedCalibration

/-- A resolved stream element ready for placement: timed pulse content, or a
barrier expressed as the channel set it levels. -/
inductive Item where
  | block (tc : TimedContent)
  | fence (chans : List Channel)
deriving DecidableEq, Repr

/-- Modelled from the spec: the channels associated with one qubit. -/
def qubitChannels (q : Nat) : List Channel :=
  [Channel.drive q, Channel.control q, Channel.measure q, Channel.acquire q]

/-- The channels associated with a qubit set. -/
def qubitsChannels (qs : List Nat) : List Channel :=
  (qs.map qubitChannels).flatten

/-- Resolve one grouped stream element to a placement item. -/
def resolvePre (tbl : CalTable) (bd : BackendDefaults) :
    PreItem → Except SchedErr Item
  | PreItem.gate n qs _ cal => (resolveGate tbl n qs cal).map Item.block
  | PreItem.meas g => Except.ok (Item.block (mergeMeasGroup tbl bd g))
  | PreItem.fence qs => Except.ok (Item.fence (qubitsChannels qs))

/-- Modelled from the spec: the resolution pipeline — measurement grouping
followed by calibration resolution of every grouped element, in stream
order. -/
def resolveItems (tbl : CalTable) (bd : BackendDefaults) (instrs : List Instr) :
    Except SchedErr (List Item) :=
  (groupInstrs instrs).mapM (resolvePre tbl bd)

/-- Modelled from the spec: the Timeline, a map from Channel to its busy-until
watermark. -/
def Watermark := Channel → Nat

/-- The fresh timeline at the start of a scheduling pass. -/
def zeroWm : Watermark := fun _ => 0

/-- Max of a watermark over a channel list (0 when the list is empty). -/
def maxOver (wm : Watermark) (cs : List Channel) : Nat :=
  (cs.map wm).foldr max 0

/-- Modelled from the spec: the barrier effect — level every channel of the
set up to the set's current maximum watermark, leaving other channels
untouched. -/
def levelUp (wm : Watermark) (cs : List Channel) : Watermark :=
  fun c => if c ∈ cs then maxOver wm cs else wm c

/-- Set the watermark of every channel in `cs` to `t`. -/
def touchWm (wm : Watermark) (cs : List Channel) (t : Nat) : Watermark :=
  fun c => if c ∈ cs then t else wm c

/-- One placed instruction: the content together with its chosen start. -/
structure Block where
  start : Nat
  content : TimedContent
deriving DecidableEq, Repr

/-- The time at which a placed block's content ends. -/
def blockEnd (b : Block) : Nat := b.start + contentDuration b.content

/-- Modelled from the spec: the placement pass shared by both directions.  For
content touching channel set C the start is `maxOver wm C`, every touched
channel's watermark becomes start + duration; a fence levels watermarks. -/
def runPass : List Item → Watermark → Watermark × List Block
  | [], wm => (wm, [])
  | Item.fence cs :: rest, wm => runPass rest (levelUp wm cs)
  | Item.block tc :: rest, wm =>
      let s := maxOver wm (contentChannels tc)
      let out := runPass rest
        (touchWm wm (contentChannels tc) (s + contentDuration tc))
      (out.1, ⟨s, tc⟩ :: out.2)

/-- Modelled from the spec: a Circuit — its name, opaque metadata blob, and
ordered instruction stream. -/
structure Circuit where
  name : String
  metadata : Option String
  instrs : List Instr
deriving DecidableEq, Repr

/-- Modelled from the spec: the output Schedule — name and metadata copied
from the circuit, plus the placed blocks in circuit order. -/
structure Schedule where
  name : String
  metadata : Option String
  blocks : List Block
deriving DecidableEq, Repr

/-- Shift one event to an absolute position: block start + internal offset. -/
def placeEvent (s : Nat) (e : PulseEvent) : PulseEvent :=
  { e with offset := s + e.offset }

/-- The absolutely placed events of one block. -/
def blockEvents (b : Block) : List PulseEvent :=
  b.content.events.map (placeEvent b.start)

/-- All placed events of a schedule, block by block. -/
def schedEvents (sched : Schedule) : List PulseEvent :=
  (sched.blocks.map blockEvents).flatten

/-- Per-channel duration query: max end over that channel's placed events. -/
def chDuration (sched : Schedule) (c : Channel) : Nat :=
  (((schedEvents sched).filter (fun e => e.channel == c)).map
    (fun e => e.offset + e.duration)).foldr max 0

/-- Total schedule duration: the max end over all placed blocks. -/
def schedDuration (sched : Schedule) : Nat :=
  (sched.blocks.map blockEnd).foldr max 0

/-- Modelled from the spec: `schedule_forward` — resolve, then place each item
as soon as its channels are free, assembling name and metadata verbatim. -/
def scheduleForward (c : Circuit) (tbl : CalTable) (bd : BackendDefaults) :
    Except SchedErr Schedule := do
  let items ← resolveItems tbl bd c.instrs
  Except.ok ⟨c.name, c.metadata, (runPass items zeroWm).2⟩

/-- Flip one reversed-frame block onto the absolute axis of total duration T:
the absolute start is T minus the block's reversed-frame end. -/
def flipBlock (T : Nat) (b : Block) : Block :=
  ⟨T - blockEnd b, b.content⟩

/-- Modelled from the spec: `schedule_backward` — reverse the resolved item
order, run the same placement pass in the reversed frame, take T as the total
duration reached (the maximum reverse watermark, equivalently the maximum
reversed block end), and flip every placement onto the absolute axis. -/
def scheduleBackward (c : Circuit) (tbl : CalTable) (bd : BackendDefaults) :
    Except SchedErr Schedule := do
  let items ← resolveItems tbl bd c.instrs
  let rblocks := (runPass items.reverse zeroWm).2
  let T := (rblocks.map blockEnd).foldr max 0
  Except.ok ⟨c.name, c.metadata, (rblocks.map (flipBlock T)).reverse⟩

/-- Modelled from the spec: the dispatch entry point.  A backend collaborator
with no timing defaults fails with BackendCapabilityMissing before any
placement work; the direction selector defaults to as-late-as-possible. -/
def scheduleCircuit (c : Circuit) (tbl : CalTable) (bd : Option BackendDefaults)
    (method : Option String) : Except SchedErr Schedule :=
  match bd with
  | none => Except.error SchedErr.backendCapabilityMissing
  | some bd =>
    match method with
    | none => scheduleBackward c tbl bd
    | some m =>
      if m = "alap" ∨ m = "as_late_as_possible" then scheduleBackward c tbl bd
      else if m = "asap" ∨ m = "as_soon_as_possible" then scheduleForward c tbl bd
      else Except.error SchedErr.unknownMethod

/-! ## Derived notions the verification reasons about -/

/-- The channels an item constrains: the content's channels for a block, the
leveled set for a fence. -/
def itemChannels : Item → List Channel
  | Item.block tc => contentChannels tc
  | Item.fence cs => cs

/-- The contents of the block items of a stream, in order. -/
def itemContents (items : List Item) : List TimedContent :=
  items.filterMap fun it =>
    match it with
    | Item.block tc => some tc
    | Item.fence _ => none

/-- The sequencing relation between placed blocks: whenever two blocks share a
channel, the earlier one ends before the later one starts. -/
def blockSeq (b1 b2 : Block) : Prop :=
  ∀ c, c ∈ contentChannels b1.content → c ∈ contentChannels b2.content →
    blockEnd b1 ≤ b2.start

/-- Two pulse events are clash-free when, on an equal channel, their time
spans do not overlap. -/
def noClash (a b : PulseEvent) : Prop :=
  a.channel = b.channel →
    ¬(a.offset < b.offset + b.duration ∧ b.offset < a.offset + a.duration)

/-- A TimedContent is internally well-formed when no two of its events clash
on a shared channel. -/
def contentWF (tc : TimedContent) : Prop := tc.events.Pairwise noClash

/-- The resolved block contents of a circuit, when resolution succeeds. -/
def circuitContents (tbl : CalTable) (bd : BackendDefaults) (c : Circuit) :
    List TimedContent :=
  match resolveItems tbl bd c.instrs with
  | Except.ok items => itemContents items
  | Except.error _ => []

/-- A circuit is well-formed for scheduling against a table and defaults when
each of its resolved contents is internally clash-free. -/
def wellFormed (tbl : CalTable) (bd : BackendDefaults) (c : Circuit) : Prop :=
  ∀ tc ∈ circuitContents tbl bd c, contentWF tc

instance (a b : PulseEvent) : Decidable (noClash a b) := by
  unfold noClash; infer_instance

instance (tc : TimedContent) : Decidable (contentWF tc) := by
  unfold contentWF; infer_instance

instance (tbl : CalTable) (bd : BackendDefaults) (c : Circuit) :
    Decidable (wellFormed tbl bd c) := by
  unfold wellFormed; infer_instance

/-! ## Concrete fixtures used to instantiate the theorems -/

/-- A one-channel drive calibration of duration 2, as the u2 pulse of the
reference backend. -/
def wU2c0 : TimedContent := ⟨[⟨Channel.drive 0, 0, 2, Payload.wave 1⟩]⟩

/-- A small calibration table holding the u2 calibration for qubit 0. -/
def wTbl : CalTable := [⟨"u2", [0], wU2c0⟩]

/-- Concrete backend defaults: identity memory-slot mapping, measurement
stimulus of 8, acquisition of 10, relaxation delay of 2. -/
def wBd : BackendDefaults := ⟨fun q => q, 8, 10, 2⟩

/-- A two-instruction circuit: a u2 gate on qubit 0 followed by measuring
qubit 0 into classical bit 0. -/
def wCirc1 : Circuit :=
  ⟨"c1", some "m1", [Instr.gate "u2" [0] [] none, Instr.measurement 0 0 none]⟩

/-- The forward schedule of `wCirc1`. -/
def wSched1 : Schedule :=
  ⟨"c1", some "m1", [⟨0, wU2c0⟩, ⟨0, defaultMeasContent wBd 0 0⟩]⟩

/-! ## Basic facts about folded maxima -/

theorem le_foldrMax {l : List Nat} {x : Nat} (h : x ∈ l) : x ≤ l.foldr max 0 := by
  induction l with
  | nil => cases h
  | cons a t ih =>
    rcases List.mem_cons.mp h with rfl | hm
    · exact le_max_left _ _
    · exact le_trans (ih hm) (le_max_right _ _)

theorem foldrMax_le {l : List Nat} {m : Nat} (h : ∀ x ∈ l, x ≤ m) :
    l.foldr max 0 ≤ m := by
  induction l with
  | nil => exact Nat.zero_le m
  | cons a t ih =>
    exact max_le (h a (List.mem_cons_self a t))
      (ih fun x hx => h x (List.mem_cons_of_mem a hx))

theorem event_end_le {tc : TimedContent} {e : PulseEvent} (h : e ∈ tc.events) :
    e.offset + e.duration ≤ contentDuration tc :=
  le_foldrMax (List.mem_map_of_mem (fun e => e.offset + e.duration) h)

theorem maxOver_ge {wm : Watermark} {cs : List Channel} {c : Channel}
    (h : c ∈ cs) : wm c ≤ maxOver wm cs :=
  le_foldrMax (List.mem_map_of_mem wm h)

theorem maxOver_le {wm : Watermark} {cs : List Channel} {m : Nat}
    (h : ∀ c ∈ cs, wm c ≤ m) : maxOver wm cs ≤ m := by
  refine foldrMax_le ?_
  intro x hx
  rcases List.mem_map.mp hx with ⟨c, hc, rfl⟩
  exact h c hc

theorem maxOver_mono {wm wm' : Watermark} (cs : List Channel)
    (h : ∀ c, wm c ≤ wm' c) : maxOver wm cs ≤ maxOver wm' cs :=
  maxOver_le fun c hc => le_trans (h c) (maxOver_ge hc)

theorem le_levelUp (wm : Watermark) (cs : List Channel) (c : Channel) :
    wm c ≤ levelUp wm cs c := by
  unfold levelUp
  by_cases h : c ∈ cs
  · simp only [h, if_true]
    exact maxOver_ge h
  · simp [h]

/-! ## Invariants of the placement pass -/

/-- The watermark is monotonically non-decreasing over a placement pass. -/
theorem runPass_mono :
    ∀ (items : List Item) (wm : Watermark) (c : Channel),
      wm c ≤ (runPass items wm).1 c := by
  intro items
  induction items with
  | nil => intro wm c; exact le_refl _
  | cons it rest ih =>
    intro wm c
    cases it with
    | fence cs =>
      exact le_trans (le_levelUp wm cs c) (ih (levelUp wm cs) c)
    | block tc =>
      refine le_trans ?_ (ih _ c)
      unfold touchWm
      by_cases h : c ∈ contentChannels tc
      · simp only [h, if_true]
        exact le_trans (maxOver_ge h) (Nat.le_add_right _ _)
      · simp [h]

/-- Every block a pass places starts no earlier than the initial watermark on
each of its channels. -/
theorem runPass_start_ge :
    ∀ (items : List Item) (wm : Watermark) (b : Block),
      b ∈ (runPass items wm).2 → ∀ c ∈ contentChannels b.content, wm c ≤ b.start := by
  intro items
  induction items with
  | nil => intro wm b hb; cases hb
  | cons it rest ih =>
    intro wm b hb c hc
    cases it with
    | fence cs =>
      exact le_trans (le_levelUp wm cs c) (ih (levelUp wm cs) b hb c hc)
    | block tc =>
      simp only [runPass] at hb
      rcases List.mem_cons.mp hb with rfl | hmem
      · exact maxOver_ge hc
      · refine le_trans ?_ (ih _ b hmem c hc)
        unfold touchWm
        by_cases h : c ∈ contentChannels tc
        · simp only [h, if_true]
          exact le_trans (maxOver_ge h) (Nat.le_add_right _ _)
        · simp [h]

/-- Blocks placed by one pass are sequenced: on any shared channel, an earlier
block ends no later than a later block starts. -/
theorem runPass_pairwise :
    ∀ (items : List Item) (wm : Watermark),
      (runPass items wm).2.Pairwise blockSeq := by
  intro items
  induction items with
  | nil => intro wm; exact List.Pairwise.nil
  | cons it rest ih =>
    intro wm
    cases it with
    | fence cs => exact ih (levelUp wm cs)
    | block tc =>
      simp only [runPass]
      refine List.Pairwise.cons ?_ (ih _)
      intro b hb c hc1 hc2
      have hge := runPass_start_ge rest _ b hb c hc2
      unfold touchWm at hge
      simp only [hc1, if_true] at hge
      exact hge

/-- A pass leaves untouched channels' watermarks unchanged. -/
theorem runPass_untouched :
    ∀ (items : List Item) (wm : Watermark) (c : Channel),
      (∀ it ∈ items, c ∉ itemChannels it) → (runPass items wm).1 c = wm c := by
  intro items
  induction items with
  | nil => intro wm c _; rfl
  | cons it rest ih =>
    intro wm c h
    have hrest : ∀ it ∈ rest, c ∉ itemChannels it :=
      fun it hit => h it (List.mem_cons_of_mem _ hit)
    have hhead := h it (List.mem_cons_self _ _)
    cases it with
    | fence cs =>
      have : levelUp wm cs c = wm c := by
        unfold levelUp
        simp [itemChannels] at hhead
        simp [hhead]
      rw [runPass, ih _ c hrest, this]
    | block tc =>
      have : touchWm wm (contentChannels tc)
          (maxOver wm (contentChannels tc) + contentDuration tc) c = wm c := by
        unfold touchWm
        simp [itemChannels] at hhead
        simp [hhead]
      simp only [runPass]
      rw [ih _ c hrest, this]

/-- A pass over an appended stream is the pass over the first part followed by
the pass over the second, threading the watermark. -/
theorem runPass_append :
    ∀ (l1 l2 : List Item) (wm : Watermark),
      runPass (l1 ++ l2) wm =
        ((runPass l2 (runPass l1 wm).1).1,
         (runPass l1 wm).2 ++ (runPass l2 (runPass l1 wm).1).2) := by
  intro l1
  induction l1 with
  | nil => intro l2 wm; simp [runPass]
  | cons it rest ih =>
    intro l2 wm
    cases it with
    | fence cs =>
      simp only [List.cons_append, runPass, List.append_eq]
      rw [ih]
    | block tc =>
      simp only [List.cons_append, runPass, List.append_eq]
      rw [ih]

/-- The placed blocks carry exactly the stream's block contents, in order. -/
theorem runPass_contents :
    ∀ (items : List Item) (wm : Watermark),
      (runPass items wm).2.map Block.content = itemContents items := by
  intro items
  induction items with
  | nil => intro wm; rfl
  | cons it rest ih =>
    intro wm
    cases it with
    | fence cs => simp only [runPass, itemContents, List.filterMap_cons]; exact ih _
    | block tc =>
      simp only [runPass, itemContents, List.filterMap_cons, List.map_cons]
      rw [ih _]
      rfl

/-! ## Channel exclusivity of placed events -/

theorem blockEvents_pairwise {b : Block} (h : contentWF b.content) :
    (blockEvents b).Pairwise noClash := by
  unfold blockEvents
  refine List.pairwise_map.mpr (h.imp ?_)
  intro e1 e2 h12 hch hcon
  have hch' : e1.channel = e2.channel := hch
  simp only [placeEvent] at hcon
  exact h12 hch' ⟨by omega, by omega⟩

theorem blocks_events_pairwise {bs : List Block}
    (hseq : bs.Pairwise blockSeq) (hwf : ∀ b ∈ bs, contentWF b.content) :
    ((bs.map blockEvents).flatten).Pairwise noClash := by
  rw [List.pairwise_flatten]
  constructor
  · intro l hl
    rcases List.mem_map.mp hl with ⟨b, hb, rfl⟩
    exact blockEvents_pairwise (hwf b hb)
  · rw [List.pairwise_map]
    refine hseq.imp ?_
    intro b1 b2 h12 x hx y hy hch
    rcases List.mem_map.mp hx with ⟨e1, he1, rfl⟩
    rcases List.mem_map.mp hy with ⟨e2, he2, rfl⟩
    have hcc : e1.channel = e2.channel := hch
    have hc1 : e1.channel ∈ contentChannels b1.content :=
      List.mem_map_of_mem PulseEvent.channel he1
    have hc2 : e1.channel ∈ contentChannels b2.content :=
      hcc ▸ List.mem_map_of_mem PulseEvent.channel he2
    have hends := h12 e1.channel hc1 hc2
    have hE1 := event_end_le he1
    intro hcon
    simp only [placeEvent] at hcon
    unfold blockEnd at hends
    omega

/-- Flipping sequenced reversed-frame blocks onto the absolute axis, and
reversing their order, yields sequenced blocks again. -/
theorem flip_blocks_pairwise {rbs : List Block} {T : Nat}
    (h : rbs.Pairwise blockSeq) (hT : ∀ b ∈ rbs, blockEnd b ≤ T) :
    ((rbs.map (flipBlock T)).reverse).Pairwise blockSeq := by
  rw [List.pairwise_reverse, List.pairwise_map]
  refine List.Pairwise.imp_of_mem ?_ h
  intro b1 b2 hb1 hb2 h12 c hc2 hc1
  have hc1' : c ∈ contentChannels b1.content := hc1
  have hc2' : c ∈ contentChannels b2.content := hc2
  have hseq12 := h12 c hc1' hc2'
  have hT2 := hT b2 hb2
  simp only [flipBlock, blockEnd] at *
  omega

theorem scheduleForward_ok {c : Circuit} {tbl : CalTable} {bd : BackendDefaults}
    {s : Schedule} (h : scheduleForward c tbl bd = Except.ok s) :
    ∃ items, resolveItems tbl bd c.instrs = Except.ok items ∧
      s = ⟨c.name, c.metadata, (runPass items zeroWm).2⟩ := by
  unfold scheduleForward at h
  cases hres : resolveItems tbl bd c.instrs with
  | error e => rw [hres] at h; cases h
  | ok items =>
    rw [hres] at h
    simp only [Bind.bind, Except.bind] at h
    cases h
    exact ⟨items, rfl, rfl⟩

theorem scheduleBackward_ok {c : Circuit} {tbl : CalTable} {bd : BackendDefaults}
    {s : Schedule} (h : scheduleBackward c tbl bd = Except.ok s) :
    ∃ items, resolveItems tbl bd c.instrs = Except.ok items ∧
      s = ⟨c.name, c.metadata,
        (((runPass items.reverse zeroWm).2).map
          (flipBlock (((runPass items.reverse zeroWm).2.map blockEnd).foldr max 0))).reverse⟩ := by
  unfold scheduleBackward at h
  cases hres : resolveItems tbl bd c.instrs with
  | error e => rw [hres] at h; cases h
  | ok items =>
    rw [hres] at h
    simp only [Bind.bind, Except.bind] at h
    cases h
    exact ⟨items, rfl, rfl⟩

theorem circuitContents_eq {tbl : CalTable} {bd : BackendDefaults} {c : Circuit}
    {items : List Item} (h : resolveItems tbl bd c.instrs = Except.ok items) :
    circuitContents tbl bd c = itemContents items := by
  unfold circuitContents
  rw [h]

/-- C1: for every Schedule produced by schedule_forward or schedule_backward
from a well-formed circuit, no two placed pulse events on the same channel
overlap in time: for any two distinct placed events a and b on an equal
channel, it is never the case that start_a < end_b and start_b < end_a. -/
theorem schedule_channel_exclusivity (c : Circuit) (tbl : CalTable)
    (bd : BackendDefaults) (s : Schedule)
    (hwf : wellFormed tbl bd c)
    (hok : scheduleForward c tbl bd = Except.ok s ∨
           scheduleBackward c tbl bd = Except.ok s) :
    (schedEvents s).Pairwise noClash := by
  rcases hok with hok | hok
  · rcases scheduleForward_ok hok with ⟨items, hres, rfl⟩
    unfold schedEvents
    refine blocks_events_pairwise (runPass_pairwise items zeroWm) ?_
    intro b hb
    apply hwf
    rw [circuitContents_eq hres, ← runPass_contents items zeroWm]
    exact List.mem_map_of_mem Block.content hb
  · rcases scheduleBackward_ok hok with ⟨items, hres, rfl⟩
    unfold schedEvents
    refine blocks_events_pairwise
      (flip_blocks_pairwise (runPass_pairwise items.reverse zeroWm) ?_) ?_
    · intro b hb
      exact le_foldrMax (List.mem_map_of_mem blockEnd hb)
    · intro b hb
      rcases List.mem_map.mp (List.mem_reverse.mp hb) with ⟨rb, hrb, rfl⟩
      apply hwf
      rw [circuitContents_eq hres]
      show rb.content ∈ itemContents items
      have hmem : rb.content ∈ itemContents items.reverse := by
        rw [← runPass_contents items.reverse zeroWm]
        exact List.mem_map_of_mem Block.content hrb
      unfold itemContents at hmem ⊢
      rw [List.filterMap_reverse] at hmem
      exact List.mem_reverse.mp hmem

/-- Witness for C1: the channel-exclusivity theorem applied to the concrete
circuit `wCirc1`, whose forward schedule is `wSched1`. -/
theorem schedule_channel_exclusivity_witness :
    wellFormed wTbl wBd wCirc1 ∧ (schedEvents wSched1).Pairwise noClash :=
  ⟨by decide,
   schedule_channel_exclusivity wCirc1 wTbl wBd wSched1 (by decide)
     (Or.inl (by rfl))⟩

/-- C5: a barrier over channel set `cs` raises every channel of `cs` to the
set's maximum watermark and no further, leaves channels outside `cs`
unchanged, never advances any watermark beyond the pre-existing maximum, is
applied at the moment it is encountered in traversal order, and the next
content touching any channel of `cs` starts no earlier than the leveled
maximum. -/
theorem barrier_levels_watermarks (wm : Watermark) (cs : List Channel) :
    (∀ c ∈ cs, levelUp wm cs c = maxOver wm cs) ∧
    (∀ c, c ∉ cs → levelUp wm cs c = wm c) ∧
    (∀ c, levelUp wm cs c ≤ max (wm c) (maxOver wm cs)) ∧
    (∀ rest, runPass (Item.fence cs :: rest) wm = runPass rest (levelUp wm cs)) ∧
    (∀ tc, (∃ c, c ∈ contentChannels tc ∧ c ∈ cs) →
      maxOver wm cs ≤ maxOver (levelUp wm cs) (contentChannels tc)) := by
  refine ⟨?_, ?_, ?_, ?_, ?_⟩
  · intro c hc; unfold levelUp; simp [hc]
  · intro c hc; unfold levelUp; simp [hc]
  · intro c
    unfold levelUp
    by_cases h : c ∈ cs
    · simp only [h, if_true]; exact le_max_right _ _
    · simp only [h, if_false]; exact le_max_left _ _
  · intro rest; rfl
  · rintro tc ⟨c, hc1, hc2⟩
    have hlev : levelUp wm cs c = maxOver wm cs := by unfold levelUp; simp [hc2]
    calc maxOver wm cs = levelUp wm cs c := hlev.symm
      _ ≤ maxOver (levelUp wm cs) (contentChannels tc) := maxOver_ge hc1

/-- A concrete watermark: channel A (drive 0) busy until 10, channel B
(drive 1) busy until 2, everything else free — the spec's own barrier test
scenario. -/
def wWm : Watermark := fun c =>
  match c with
  | Channel.drive 0 => 10
  | Channel.drive 1 => 2
  | _ => 0

/-- A content that requires only channel B (drive 1). -/
def wDrive1c : TimedContent := ⟨[⟨Channel.drive 1, 0, 2, Payload.wave 0⟩]⟩

/-- Witness for C5: after a barrier over drive 0 and drive 1 with watermarks
10 and 2, drive 1 is leveled to 10, an outside channel is unchanged, and a
content needing only drive 1 starts no earlier than 10. -/
theorem barrier_levels_watermarks_witness :
    levelUp wWm [Channel.drive 0, Channel.drive 1] (Channel.drive 1) =
      maxOver wWm [Channel.drive 0, Channel.drive 1] ∧
    levelUp wWm [Channel.drive 0, Channel.drive 1] (Channel.drive 2) =
      wWm (Channel.drive 2) ∧
    maxOver wWm [Channel.drive 0, Channel.drive 1] ≤
      maxOver (levelUp wWm [Channel.drive 0, Channel.drive 1])
        (contentChannels wDrive1c) :=
  ⟨(barrier_levels_watermarks wWm [Channel.drive 0, Channel.drive 1]).1
     (Channel.drive 1) (by decide),
   (barrier_levels_watermarks wWm [Channel.drive 0, Channel.drive 1]).2.1
     (Channel.drive 2) (by decide),
   (barrier_levels_watermarks wWm [Channel.drive 0, Channel.drive 1]).2.2.2.2
     wDrive1c ⟨Channel.drive 1, by decide, by decide⟩⟩

/-- C4: in forward scheduling, the instruction's chosen start time equals the
maximum watermark over the channels its resolved content touches; the
watermark of each touched channel is then set to start + duration; an
instruction whose channels were never touched by earlier items starts at 0;
and schedule_forward assembles exactly the blocks of this pass. -/
theorem asap_start_eq_watermark_max (tbl : CalTable) (bd : BackendDefaults)
    (l1 l2 : List Item) (tc : TimedContent) (w1 : Watermark) (s : Nat)
    (hw : w1 = (runPass l1 zeroWm).1)
    (hs : s = maxOver w1 (contentChannels tc)) :
    ((runPass (l1 ++ Item.block tc :: l2) zeroWm).2 =
      (runPass l1 zeroWm).2 ++ ⟨s, tc⟩ ::
        (runPass l2 (touchWm w1 (contentChannels tc)
          (s + contentDuration tc))).2) ∧
    (∀ c ∈ contentChannels tc,
      (runPass (l1 ++ [Item.block tc]) zeroWm).1 c = s + contentDuration tc) ∧
    ((∀ it ∈ l1, ∀ c ∈ contentChannels tc, c ∉ itemChannels it) → s = 0) ∧
    (∀ circ : Circuit,
      resolveItems tbl bd circ.instrs = Except.ok (l1 ++ Item.block tc :: l2) →
      scheduleForward circ tbl bd = Except.ok
        ⟨circ.name, circ.metadata,
         (runPass (l1 ++ Item.block tc :: l2) zeroWm).2⟩) := by
  subst hw
  subst hs
  refine ⟨?_, ?_, ?_, ?_⟩
  · rw [runPass_append]
    simp only [runPass]
  · intro c hc
    rw [runPass_append]
    simp only [runPass, touchWm, hc, if_true]
  · intro h
    refine Nat.le_antisymm (maxOver_le ?_) (Nat.zero_le _)
    intro c hc
    have := runPass_untouched l1 zeroWm c (fun it hit => h it hit c hc)
    rw [this]
    exact le_refl 0
  · intro circ hres
    unfold scheduleForward
    rw [hres]
    simp only [Bind.bind, Except.bind]

/-- Witness for C4: in `wCirc1` the measurement's channels are untouched by
the preceding u2 gate, so its block starts at time 0, and schedule_forward
assembles the pass's blocks. -/
theorem asap_start_eq_watermark_max_witness :
    maxOver (runPass [Item.block wU2c0] zeroWm).1
      (contentChannels (defaultMeasContent wBd 0 0)) = 0 ∧
    scheduleForward wCirc1 wTbl wBd = Except.ok
      ⟨wCirc1.name, wCirc1.metadata,
       (runPass ([Item.block wU2c0] ++
          Item.block (defaultMeasContent wBd 0 0) :: []) zeroWm).2⟩ :=
  ⟨(asap_start_eq_watermark_max wTbl wBd [Item.block wU2c0] []
      (defaultMeasContent wBd 0 0) _ _ rfl rfl).2.2.1 (by decide),
   (asap_start_eq_watermark_max wTbl wBd [Item.block wU2c0] []
      (defaultMeasContent wBd 0 0) _ _ rfl rfl).2.2.2 wCirc1 (by rfl)⟩

/-- The forward schedule's blocks carry the circuit's resolved contents in
circuit order. -/
theorem forward_blocks_contents {c : Circuit} {tbl : CalTable}
    {bd : BackendDefaults} {s : Schedule}
    (h : scheduleForward c tbl bd = Except.ok s) :
    s.blocks.map Block.content = circuitContents tbl bd c := by
  rcases scheduleForward_ok h with ⟨items, hres, rfl⟩
  rw [circuitContents_eq hres]
  exact runPass_contents items zeroWm

/-- The backward schedule's blocks carry the circuit's resolved contents in
circuit order as well: flipping preserves contents and the double reversal
cancels. -/
theorem backward_blocks_contents {c : Circuit} {tbl : CalTable}
    {bd : BackendDefaults} {s : Schedule}
    (h : scheduleBackward c tbl bd = Except.ok s) :
    s.blocks.map Block.content = circuitContents tbl bd c := by
  rcases scheduleBackward_ok h with ⟨items, hres, rfl⟩
  rw [circuitContents_eq hres]
  show ((((runPass items.reverse zeroWm).2).map
      (flipBlock _)).reverse).map Block.content = itemContents items
  rw [List.map_reverse, List.map_map]
  have hcomp : Block.content ∘ flipBlock
      (((runPass items.reverse zeroWm).2.map blockEnd).foldr max 0) =
      Block.content := rfl
  rw [hcomp, runPass_contents]
  unfold itemContents
  rw [List.filterMap_reverse, List.reverse_reverse]

/-- C3: for every circuit that both directions schedule successfully, forward
and backward scheduling realize every instruction with identical relative
internal timing: the two directions agree on each block's content (the shape),
and in both schedules a block's events are exactly its content's events
shifted by the block's global start time. -/
theorem asap_alap_same_shape (c : Circuit) (tbl : CalTable)
    (bd : BackendDefaults) (sf sb : Schedule)
    (hf : scheduleForward c tbl bd = Except.ok sf)
    (hb : scheduleBackward c tbl bd = Except.ok sb) :
    sf.blocks.map Block.content = sb.blocks.map Block.content ∧
    (∀ b ∈ sf.blocks, blockEvents b = b.content.events.map (placeEvent b.start)) ∧
    (∀ b ∈ sb.blocks, blockEvents b = b.content.events.map (placeEvent b.start)) := by
  refine ⟨?_, fun b _ => rfl, fun b _ => rfl⟩
  rw [forward_blocks_contents hf, backward_blocks_contents hb]

/-- The backward schedule of `wCirc1`: same contents as `wSched1`, placed so
that everything ends at the total duration 10. -/
def wSched1b : Schedule :=
  ⟨"c1", some "m1", [⟨8, wU2c0⟩, ⟨0, defaultMeasContent wBd 0 0⟩]⟩

/-- Witness for C3: forward and backward schedules of `wCirc1` have blocks of
identical contents. -/
theorem asap_alap_same_shape_witness :
    wSched1.blocks.map Block.content = wSched1b.blocks.map Block.content :=
  (asap_alap_same_shape wCirc1 wTbl wBd wSched1 wSched1b (by rfl) (by rfl)).1

/-! ## End alignment under backward scheduling -/

theorem levelUp_zero {wm : Watermark} (h : ∀ c, wm c = 0) (cs : List Channel) :
    ∀ c, levelUp wm cs c = 0 := by
  intro c
  unfold levelUp
  by_cases hc : c ∈ cs
  · simp only [hc, if_true]
    exact Nat.le_antisymm (maxOver_le fun c' _ => (h c').le) (Nat.zero_le _)
  · simp [hc, h c]

/-- Started from an all-zero watermark, the first block a pass places starts
at time 0. -/
theorem runPass_head_start_zero :
    ∀ (items : List Item) (wm : Watermark), (∀ c, wm c = 0) →
      ∀ b, (runPass items wm).2.head? = some b → b.start = 0 := by
  intro items
  induction items with
  | nil => intro wm _ b hb; cases hb
  | cons it rest ih =>
    intro wm h b hb
    cases it with
    | fence cs => exact ih (levelUp wm cs) (levelUp_zero h cs) b hb
    | block tc =>
      simp only [runPass, List.head?_cons] at hb
      cases hb
      exact Nat.le_antisymm (maxOver_le fun c _ => (h c).le) (Nat.zero_le _)

/-- No placed event of a schedule reaches past any channel's duration bound:
per-channel durations are bounded by the total duration. -/
theorem chDuration_le_schedDuration (sch : Schedule) (c : Channel) :
    chDuration sch c ≤ schedDuration sch := by
  apply foldrMax_le
  intro x hx
  rcases List.mem_map.mp hx with ⟨e, he, rfl⟩
  have he' : e ∈ schedEvents sch := List.mem_of_mem_filter he
  unfold schedEvents at he'
  rcases List.mem_flatten.mp he' with ⟨l, hl, hel⟩
  rcases List.mem_map.mp hl with ⟨b, hb, rfl⟩
  rcases List.mem_map.mp hel with ⟨e0, he0, rfl⟩
  have h1 := event_end_le he0
  have h2 : blockEnd b ≤ schedDuration sch :=
    le_foldrMax (List.mem_map_of_mem blockEnd hb)
  simp only [placeEvent]
  unfold blockEnd at h2
  omega

theorem le_chDuration_of_mem {sch : Schedule} {e : PulseEvent} {c : Channel}
    (he : e ∈ schedEvents sch) (hc : e.channel = c) :
    e.offset + e.duration ≤ chDuration sch c := by
  apply le_foldrMax
  refine List.mem_map_of_mem _ (List.mem_filter.mpr ⟨he, ?_⟩)
  simp [hc]

/-- A block ending exactly at the schedule's total duration realizes that
duration on every channel on which it has a full-length event. -/
theorem chDuration_eq_of_full_event {sch : Schedule} {b : Block}
    {e : PulseEvent}
    (hb : b ∈ sch.blocks) (he : e ∈ b.content.events)
    (hend : blockEnd b = schedDuration sch)
    (hdur : e.offset + e.duration = contentDuration b.content) :
    chDuration sch e.channel = schedDuration sch := by
  refine Nat.le_antisymm (chDuration_le_schedDuration sch e.channel) ?_
  have hpe : placeEvent b.start e ∈ schedEvents sch := by
    unfold schedEvents
    exact List.mem_flatten.mpr
      ⟨blockEvents b, List.mem_map_of_mem blockEvents hb,
       List.mem_map_of_mem (placeEvent b.start) he⟩
  have hle := le_chDuration_of_mem hpe
    (rfl : (placeEvent b.start e).channel = e.channel)
  simp only [placeEvent] at hle
  unfold blockEnd at hend
  omega

/-- The content of the spec-violating gate: two channels, one of which (drive
1) stops two time steps before the content's total duration of 4. -/
def cexContent : TimedContent :=
  ⟨[⟨Channel.drive 0, 0, 4, Payload.wave 0⟩,
    ⟨Channel.drive 1, 0, 2, Payload.wave 0⟩]⟩

/-- A circuit whose only (hence last) instruction is the two-channel gate,
with no trailing barrier. -/
def cexCirc : Circuit :=
  ⟨"cex", none, [Instr.gate "g" [0, 1] [] (some cexContent)]⟩

/-- The backward schedule of `cexCirc`. -/
def cexSched : Schedule := ⟨"cex", none, [⟨0, cexContent⟩]⟩

/-- Counterexample to C2 as stated: under backward scheduling of `cexCirc`
(no trailing barrier), channel drive 1 is touched by the circuit's last
instruction yet reaches only duration 2, not the schedule's maximum duration
4 — a channel whose events stop before the content's total duration does not
reach T. -/
theorem alap_end_alignment_cex :
    scheduleBackward cexCirc [] wBd = Except.ok cexSched ∧
    cexCirc.instrs.getLast? =
      some (Instr.gate "g" [0, 1] [] (some cexContent)) ∧
    Channel.drive 1 ∈ contentChannels cexContent ∧
    chDuration cexSched (Channel.drive 1) = 2 ∧
    schedDuration cexSched = 4 :=
  ⟨by rfl, by rfl, by decide, by decide, by decide⟩

/-- C2 (amended): for every circuit, backward scheduling places the block of
the circuit's last-in-order instruction so that it ends exactly at the total
duration T — the implicit final barrier — and each touched channel on which
that content has an event reaching the content's full duration (in
particular every channel of the single-channel calibrations of the reference
tests) attains per-channel duration exactly T. -/
theorem alap_end_alignment_amended (c : Circuit) (tbl : CalTable)
    (bd : BackendDefaults) (s : Schedule) (blast : Block)
    (hok : scheduleBackward c tbl bd = Except.ok s)
    (hlast : s.blocks.getLast? = some blast) :
    blockEnd blast = schedDuration s ∧
    ∀ e ∈ blast.content.events,
      e.offset + e.duration = contentDuration blast.content →
      chDuration s e.channel = schedDuration s := by
  rcases scheduleBackward_ok hok with ⟨items, hres, rfl⟩
  rw [List.getLast?_reverse] at hlast
  cases hrbs : (runPass items.reverse zeroWm).2 with
  | nil => rw [hrbs] at hlast; cases hlast
  | cons rb0 rtl =>
    rw [hrbs] at hlast
    simp only [List.head?_map, List.head?_cons, Option.map_some'] at hlast
    have h0 : rb0.start = 0 := by
      refine runPass_head_start_zero items.reverse zeroWm (fun _ => rfl) rb0 ?_
      rw [hrbs]
      rfl
    cases hlast
    have hT0 : blockEnd rb0 ≤
        (((rb0 :: rtl).map blockEnd).foldr max 0) :=
      le_foldrMax (List.mem_map_of_mem blockEnd (List.mem_cons_self rb0 rtl))
    have hflipmem :
        flipBlock (((rb0 :: rtl).map blockEnd).foldr max 0) rb0 ∈
          (((rb0 :: rtl).map
            (flipBlock (((rb0 :: rtl).map blockEnd).foldr max 0))).reverse) :=
      List.mem_reverse.mpr
        (List.mem_map_of_mem _ (List.mem_cons_self rb0 rtl))
    have hEnd : blockEnd
        (flipBlock (((rb0 :: rtl).map blockEnd).foldr max 0) rb0) =
        (((rb0 :: rtl).map blockEnd).foldr max 0) := by
      simp only [flipBlock, blockEnd] at *
      omega
    have hSched : schedDuration
        ⟨c.name, c.metadata,
         ((rb0 :: rtl).map
           (flipBlock (((rb0 :: rtl).map blockEnd).foldr max 0))).reverse⟩ =
        (((rb0 :: rtl).map blockEnd).foldr max 0) := by
      refine Nat.le_antisymm (foldrMax_le ?_) ?_
      · intro x hx
        rcases List.mem_map.mp hx with ⟨b, hb, rfl⟩
        rcases List.mem_map.mp (List.mem_reverse.mp hb) with ⟨rb, hrb, rfl⟩
        have hrbT : blockEnd rb ≤ (((rb0 :: rtl).map blockEnd).foldr max 0) :=
          le_foldrMax (List.mem_map_of_mem blockEnd hrb)
        simp only [flipBlock, blockEnd] at *
        omega
      · have hmem := le_foldrMax (List.mem_map_of_mem blockEnd hflipmem)
        rw [hEnd] at hmem
        exact hmem
    refine ⟨hEnd.trans hSched.symm, ?_⟩
    intro e he hdur
    exact chDuration_eq_of_full_event hflipmem he (hEnd.trans hSched.symm) hdur

/-- Witness for the amended C2: in the backward schedule of `wCirc1` the last
block (the measurement) ends exactly at the total duration, and the acquire
channel, carrying a full-length event, attains exactly that duration. -/
theorem alap_end_alignment_amended_witness :
    blockEnd ⟨0, defaultMeasContent wBd 0 0⟩ = schedDuration wSched1b ∧
    chDuration wSched1b (Channel.acquire 0) = schedDuration wSched1b :=
  have h := alap_end_alignment_amended wCirc1 wTbl wBd wSched1b
    ⟨0, defaultMeasContent wBd 0 0⟩ (by rfl) (by rfl)
  ⟨h.1, h.2 ⟨Channel.acquire 0, 0, 10, Payload.acq 0⟩ (by decide) (by decide)⟩

/-! ## Measurement resolution -/

/-- C6: per-qubit measurement resolution.  When a calibration (explicit or
from the table) exists for ("measure", (q)) and the classical-bit target
equals the hardware default memory-slot mapping for q, the calibration is
used for that qubit unchanged; on any classical-bit remap, or with no
calibration at all, the default measurement content is synthesized, and its
Acquire event's memory slot is exactly the declared classical bit; qubits
measured together are resolved independently and unioned into one merged
content. -/
theorem measure_calibration_selection (tbl : CalTable) (bd : BackendDefaults)
    (q clbit : Nat) (cal : Option TimedContent) :
    (∀ tc, cal.orElse (fun _ => lookupCal tbl "measure" [q]) = some tc →
      clbit = bd.memSlot q → resolveMeasQubit tbl bd q clbit cal = tc) ∧
    (clbit ≠ bd.memSlot q →
      resolveMeasQubit tbl bd q clbit cal = defaultMeasContent bd q clbit) ∧
    (cal = none → lookupCal tbl "measure" [q] = none →
      resolveMeasQubit tbl bd q clbit cal = defaultMeasContent bd q clbit) ∧
    (∀ e ∈ (defaultMeasContent bd q clbit).events, ∀ slot,
      e.payload = Payload.acq slot → slot = clbit) ∧
    (∀ g : MeasGroup, mergeMeasGroup tbl bd g =
      ⟨(g.map (fun x =>
        (resolveMeasQubit tbl bd x.1 x.2.1 x.2.2).events)).flatten⟩) := by
  refine ⟨?_, ?_, ?_, ?_, fun g => rfl⟩
  · intro tc htc heq
    unfold resolveMeasQubit
    rw [htc]
    simp [heq]
  · intro hne
    unfold resolveMeasQubit
    cases cal.orElse (fun _ => lookupCal tbl "measure" [q]) with
    | none => rfl
    | some tc => simp [hne]
  · intro h1 h2
    unfold resolveMeasQubit
    rw [h1]
    simp only [Option.orElse, Option.none_orElse]
    rw [h2]
  · intro e he slot hp
    unfold defaultMeasContent at he
    simp only [List.mem_cons, List.mem_singleton] at he
    rcases he with rfl | rfl | rfl | h
    · cases hp
    · cases hp; rfl
    · cases hp
    · cases h

/-- A calibrated measurement content for qubit 0 whose acquire payload is
bound to memory slot 0. -/
def wMeasCal0 : TimedContent :=
  ⟨[⟨Channel.measure 0, 0, 6, Payload.wave 7⟩,
    ⟨Channel.acquire 0, 0, 6, Payload.acq 0⟩]⟩

/-- A table carrying the measurement calibration for qubit 0. -/
def wTblMeas : CalTable := [⟨"measure", [0], wMeasCal0⟩]

/-- Witness for C6: with matching classical bit the calibration is used
unchanged; remapping the classical bit to 1 forces the synthesized default
whose acquire slot is 1, not the calibration's 0. -/
theorem measure_calibration_selection_witness :
    resolveMeasQubit wTblMeas wBd 0 0 none = wMeasCal0 ∧
    resolveMeasQubit wTblMeas wBd 0 1 none = defaultMeasContent wBd 0 1 ∧
    (∀ slot, (⟨Channel.acquire 0, 0, 10, Payload.acq 1⟩ :
        PulseEvent).payload = Payload.acq slot → slot = 1) :=
  ⟨(measure_calibration_selection wTblMeas wBd 0 0 none).1 wMeasCal0
     (by rfl) (by decide),
   (measure_calibration_selection wTblMeas wBd 0 1 none).2.1 (by decide),
   fun slot hp =>
     (measure_calibration_selection wTblMeas wBd 0 1 none).2.2.2.1
       ⟨Channel.acquire 0, 0, 10, Payload.acq 1⟩ (by decide) slot hp⟩

/-! ## Repeated measurements are never coalesced -/

theorem mem_flushPre {g : MeasGroup} {items : List PreItem} {p : PreItem}
    (h : p ∈ flushPre g items) : p = PreItem.meas g ∨ p ∈ items := by
  cases g with
  | nil => exact Or.inr h
  | cons x t =>
    rcases List.mem_cons.mp h with h | h
    · exact Or.inl h
    · exact Or.inr h

/-- Every measurement group the grouping pass emits has pairwise-distinct
qubits, provided the pending group does: a repeated qubit always closes the
window. -/
theorem groupGo_nodup :
    ∀ (instrs : List Instr) (g : MeasGroup), (groupQubits g).Nodup →
      ∀ gr, PreItem.meas gr ∈ groupGo instrs g → (groupQubits gr).Nodup := by
  intro instrs
  induction instrs with
  | nil =>
    intro g hg gr hmem
    simp only [groupGo] at hmem
    rcases mem_flushPre hmem with h | h
    · cases h; exact hg
    · cases h
  | cons i rest ih =>
    intro g hg gr hmem
    cases i with
    | gate n qs ps cal =>
      simp only [groupGo] at hmem
      rcases mem_flushPre hmem with h | h
      · cases h; exact hg
      · rcases List.mem_cons.mp h with h | h
        · cases h
        · exact ih [] List.nodup_nil gr h
    | measurement q cb cal =>
      simp only [groupGo] at hmem
      by_cases hq : q ∈ groupQubits g
      · rw [if_pos hq] at hmem
        rcases mem_flushPre hmem with h | h
        · cases h; exact hg
        · exact ih [(q, cb, cal)] (List.nodup_singleton q) gr h
      · rw [if_neg hq] at hmem
        refine ih (g ++ [(q, cb, cal)]) ?_ gr hmem
        unfold groupQubits
        rw [List.map_append]
        refine List.Nodup.append hg (List.nodup_singleton q) ?_
        intro a ha hb
        rcases List.mem_singleton.mp hb with rfl
        exact hq ha
    | barrier qs =>
      simp only [groupGo] at hmem
      rcases mem_flushPre hmem with h | h
      · cases h; exact hg
      · rcases List.mem_cons.mp h with h | h
        · cases h
        · exact ih [] List.nodup_nil gr h

/-- C7: two measurements of the same qubit in one circuit are never coalesced
and the second starts only after the first has fully finished.  Every merged
measurement group has pairwise-distinct qubits (a repeat opens a fresh group
with its own Acquire+Measure events); in any produced schedule, blocks
sharing a channel are sequenced, so the later measurement's events start no
earlier than the earlier one's block end; and the default measurement
content's duration includes the post-measurement relaxation delay. -/
theorem repeated_measurement_fresh :
    (∀ (instrs : List Instr) (gr : MeasGroup),
      PreItem.meas gr ∈ groupInstrs instrs → (groupQubits gr).Nodup) ∧
    (∀ (c : Circuit) (tbl : CalTable) (bd : BackendDefaults) (s : Schedule),
      (scheduleForward c tbl bd = Except.ok s ∨
       scheduleBackward c tbl bd = Except.ok s) →
      s.blocks.Pairwise blockSeq) ∧
    (∀ (bd : BackendDefaults) (q cb : Nat),
      bd.measDuration + bd.relaxDelay ≤
        contentDuration (defaultMeasContent bd q cb)) := by
  refine ⟨?_, ?_, ?_⟩
  · intro instrs gr hmem
    exact groupGo_nodup instrs [] List.nodup_nil gr hmem
  · intro c tbl bd s hok
    rcases hok with hok | hok
    · rcases scheduleForward_ok hok with ⟨items, _, rfl⟩
      exact runPass_pairwise items zeroWm
    · rcases scheduleBackward_ok hok with ⟨items, _, rfl⟩
      refine flip_blocks_pairwise (runPass_pairwise items.reverse zeroWm) ?_
      intro b hb
      exact le_foldrMax (List.mem_map_of_mem blockEnd hb)
  · intro bd q cb
    refine le_foldrMax ?_
    unfold defaultMeasContent
    simp [contentDuration]

/-- A circuit measuring qubit 0 twice in a row. -/
def wCirc2 : Circuit :=
  ⟨"c2", none, [Instr.measurement 0 0 none, Instr.measurement 0 1 none]⟩

/-- The forward schedule of `wCirc2`: two separate measurement blocks, the
second starting only at 10, after the first one's full duration including the
relaxation delay. -/
def wSched2 : Schedule :=
  ⟨"c2", none,
   [⟨0, defaultMeasContent wBd 0 0⟩, ⟨10, defaultMeasContent wBd 0 1⟩]⟩

/-- Witness for C7 on `wCirc2`: its grouping emits a duplicate-free
single-qubit group, its forward schedule's blocks are sequenced, and the
default measurement duration includes the relaxation delay. -/
theorem repeated_measurement_fresh_witness :
    (groupQubits [(0, 0, none)]).Nodup ∧
    wSched2.blocks.Pairwise blockSeq ∧
    wBd.measDuration + wBd.relaxDelay ≤
      contentDuration (defaultMeasContent wBd 0 0) :=
  ⟨repeated_measurement_fresh.1 wCirc2.instrs [(0, 0, none)] (by decide),
   repeated_measurement_fresh.2.1 wCirc2 wTbl wBd wSched2 (Or.inl (by rfl)),
   repeated_measurement_fresh.2.2 wBd 0 0⟩

/-! ## Frame effects and dispatch -/

/-- C8: both directions copy the circuit's name and metadata into the output
Schedule verbatim. -/
theorem name_metadata_passthrough (c : Circuit) (tbl : CalTable)
    (bd : BackendDefaults) (s : Schedule) :
    (scheduleForward c tbl bd = Except.ok s →
      s.name = c.name ∧ s.metadata = c.metadata) ∧
    (scheduleBackward c tbl bd = Except.ok s →
      s.name = c.name ∧ s.metadata = c.metadata) := by
  constructor
  · intro h
    rcases scheduleForward_ok h with ⟨items, _, rfl⟩
    exact ⟨rfl, rfl⟩
  · intro h
    rcases scheduleBackward_ok h with ⟨items, _, rfl⟩
    exact ⟨rfl, rfl⟩

/-- Witness for C8 on `wCirc1` in both directions. -/
theorem name_metadata_passthrough_witness :
    (wSched1.name = wCirc1.name ∧ wSched1.metadata = wCirc1.metadata) ∧
    (wSched1b.name = wCirc1.name ∧ wSched1b.metadata = wCirc1.metadata) :=
  ⟨(name_metadata_passthrough wCirc1 wTbl wBd wSched1).1 (by rfl),
   (name_metadata_passthrough wCirc1 wTbl wBd wSched1b).2 (by rfl)⟩

/-- C9: against a backend collaborator with no timing defaults, every
schedule() call fails synchronously with BackendCapabilityMissing and no
Schedule — partial or otherwise — is ever returned. -/
theorem missing_defaults_error (c : Circuit) (tbl : CalTable)
    (method : Option String) :
    scheduleCircuit c tbl none method =
      Except.error SchedErr.backendCapabilityMissing := rfl

/-- C10: the dispatch entry point with no direction selector behaves exactly
as with the "alap" selector: as-late-as-possible is the default method. -/
theorem default_method_alap (c : Circuit) (tbl : CalTable)
    (bd : Option BackendDefaults) :
    scheduleCircuit c tbl bd none = scheduleCircuit c tbl bd (some "alap") := by
  cases bd with
  | none => rfl
  | some bd =>
    show scheduleBackward c tbl bd =
      if ("alap" : String) = "alap" ∨ ("alap" : String) = "as_late_as_possible"
      then scheduleBackward c tbl bd
      else if ("alap" : String) = "asap" ∨
          ("alap" : String) = "as_soon_as_possible"
      then scheduleForward c tbl bd
      else Except.error SchedErr.unknownMethod
    rw [if_pos (Or.inl rfl)]

end PulseSched
